import Mathlib

set_option maxRecDepth 16000

/-!
Verification development for the SerialPlotterTUI repository.

The definitions below are a shallow embedding, over `List Char` and plain
lists, of the core pipeline of `src/SerialPlotterTUI.py` (with the near
identical variants `src/serial_plotter.py` and `src/serial_plotter_tui.py`):

* `parse_line` embeds `SerialPlotterTUI.parse_line` (lines 415-444), with the
  Python regexes `(\w+)\s*[:=]\s*([-+]?\d*\.?\d+)` (via `re.findall`),
  `[-+]?\d*\.?\d+` (via `re.search`) and `re.split(r'[,;\s\t]+', line)`
  modelled as deterministic scanners.  Python's backtracking regexes are
  deterministic on these patterns (no alternation; the character classes of
  adjacent greedy parts are disjoint), which the comments at the individual
  matchers spell out.  Character classes are modelled at ASCII level.
* Python `float(str)` is embedded by `pyFloatOfStr`: exact decimal values as
  `PyNum` (mantissa times a power of ten), with the IEEE-754 double overflow
  threshold `2^1024 - 2^970` deciding when CPython returns `inf`, and the
  case-insensitive special spellings `nan` / `inf` / `infinity`.  Rounding of
  in-range values is not modelled (no claim depends on it); underscores in
  numeric literals cannot occur in the regex tokens.
* `PlotextGraph` / `add_values` embed the series store of
  `PlotextGraph.__init__` / `PlotextGraph.add_values` (lines 75-80, 147-162);
  Python `deque(maxlen=n)` appends are `dequeAppend`.
* `update_values` embeds `CurrentValues.update_values` (lines 275-277),
  `action_clear` embeds `SerialPlotterTUI.action_clear` (lines 569-572).
* `linkStep` embeds one iteration of the connection handling in
  `SerialPlotterTUI.read_serial_loop` (lines 446-511): an event stands for an
  iteration whose read / reconnect attempt actually ran (iterations skipped by
  the 1-second reconnect gate, the pause flag, or an empty input buffer change
  no state and emit nothing).
-/

/-! ### Character classes (ASCII level, as used by the Python regexes) -/

/-- Matches `\d` of the Python patterns: an ASCII decimal digit. -/
def isDigitChar (c : Char) : Bool :=
  48 ≤ c.toNat && c.toNat ≤ 57

/-- Matches `\s` of the Python patterns at ASCII level: space, tab, newline,
carriage return, vertical tab, form feed. -/
def isSpaceChar (c : Char) : Bool :=
  c.toNat = 32 || c.toNat = 9 || c.toNat = 10 || c.toNat = 13 ||
    c.toNat = 11 || c.toNat = 12

/-- Matches `\w` of the labeled pattern at ASCII level: letter, digit or
underscore. -/
def isWordChar (c : Char) : Bool :=
  (65 ≤ c.toNat && c.toNat ≤ 90) || (97 ≤ c.toNat && c.toNat ≤ 122) ||
    isDigitChar c || c.toNat = 95

/-- A character of the separator class `[,;\s\t]` of the positional split. -/
def isSepChar (c : Char) : Bool :=
  c.toNat = 44 || c.toNat = 59 || isSpaceChar c

/-- A character that can occur in a token of the numeric grammar
`[-+]?\d*\.?\d+`: digit, sign or dot. -/
def isNumTokenChar (c : Char) : Bool :=
  isDigitChar c || c.toNat = 43 || c.toNat = 45 || c.toNat = 46

/-- Greedy span: the maximal prefix whose characters satisfy `p`, and the
rest.  This is how each greedy `X*` / `X+` piece of the patterns behaves. -/
def spanP (p : Char → Bool) : List Char → List Char × List Char
  | [] => ([], [])
  | c :: t =>
    if p c then
      let r := spanP p t
      (c :: r.1, r.2)
    else ([], c :: t)

theorem spanP_length_eq (p : Char → Bool) (s : List Char) :
    (spanP p s).1.length + (spanP p s).2.length = s.length := by
  induction s with
  | nil => simp [spanP]
  | cons c t ih =>
    by_cases h : p c
    · simp only [spanP, h, if_pos, List.length_cons]
      omega
    · simp [spanP, h]

theorem spanP_snd_length_le (p : Char → Bool) (s : List Char) :
    (spanP p s).2.length ≤ s.length := by
  have := spanP_length_eq p s
  omega

theorem spanP_fst_sat (p : Char → Bool) (s : List Char) :
    ∀ c ∈ (spanP p s).1, p c = true := by
  induction s with
  | nil => simp [spanP]
  | cons c t ih =>
    by_cases h : p c
    · intro x hx
      simp only [spanP, h, if_pos] at hx
      rcases List.mem_cons.mp hx with hx | hx
      · exact hx ▸ h
      · exact ih x hx
    · simp [spanP, h]

/-! ### The numeric token matcher, Python regex `[-+]?\d*\.?\d+`

`matchNumAt s` is the leftmost-greedy match of the pattern anchored at the
head of `s`, returning the matched token and the rest.  The backtracking
behaviour of the Python engine on this pattern is deterministic:

* with the maximal digit run `d1` for `\d*`, if a `.` followed by at least one
  digit comes next the engine takes `d1 . d2` (`d2` the maximal digit run
  after the dot); otherwise, if `d1` is nonempty, backtracking settles on the
  digits alone (the final `\d+` takes the last digit of `d1`); if `d1` is
  empty the only option left is `. d2` with `d2` nonempty;
* a consumed sign can never be rescued by re-trying without it (the sign
  character itself matches neither `\d` nor `\.`). -/

def matchNumBody (s : List Char) : Option (List Char × List Char) :=
  let r1 := spanP isDigitChar s
  if r1.1 = [] then
    match r1.2 with
    | '.' :: rr =>
      let r2 := spanP isDigitChar rr
      if r2.1 = [] then none else some ('.' :: r2.1, r2.2)
    | _ => none
  else
    match r1.2 with
    | '.' :: rr =>
      let r2 := spanP isDigitChar rr
      if r2.1 = [] then some (r1.1, r1.2)
      else some (r1.1 ++ '.' :: r2.1, r2.2)
    | _ => some (r1.1, r1.2)

def matchNumAt (s : List Char) : Option (List Char × List Char) :=
  match s with
  | c :: t =>
    if c = '+' || c = '-' then
      match matchNumBody t with
      | some (tok, rest) => some (c :: tok, rest)
      | none => none
    else
      matchNumBody s
  | [] => none

/-! ### The labeled matcher, Python regex `(\w+)\s*[:=]\s*([-+]?\d*\.?\d+)`

`matchLabeledAt s` anchors the pattern at the head of `s`.  `\w+`, `\s*` are
greedy; shortening `\w+` cannot rescue a failed `[:=]` (a word character never
matches `[:=]` or `\s`), so maximal runs are the unique candidate. -/

def matchLabeledAt (s : List Char) : Option (String × List Char × List Char) :=
  let rw := spanP isWordChar s
  if rw.1 = [] then none
  else
    let r1 := spanP isSpaceChar rw.2
    match r1.2 with
    | c :: r3 =>
      if c = ':' || c = '=' then
        let r2 := spanP isSpaceChar r3
        match matchNumAt r2.2 with
        | some (tok, rest) => some (⟨rw.1⟩, tok, rest)
        | none => none
      else none
    | [] => none

/-- Fuel-driven scan of `re.findall`: at each position try the anchored match;
on success record the groups and continue at the match end, otherwise advance
one character.  Matches of this pattern are never empty, so fuel
`s.length + 1` always suffices. -/
def findallAux : Nat → List Char → List (String × List Char)
  | 0, _ => []
  | fuel + 1, s =>
    match matchLabeledAt s with
    | some pr => (pr.1, pr.2.1) :: findallAux fuel pr.2.2
    | none =>
      match s with
      | [] => []
      | _ :: t => findallAux fuel t

/-- `re.findall(r'(\w+)\s*[:=]\s*([-+]?\d*\.?\d+)', line)`: the list of
(label, number-token) group pairs, in scan order. -/
def labeledMatches (s : List Char) : List (String × List Char) :=
  findallAux (s.length + 1) s

/-- `re.search(r'[-+]?\d*\.?\d+', part)`: the leftmost match of the numeric
grammar anywhere in `part`. -/
def searchNum : List Char → Option (List Char)
  | [] => none
  | c :: t =>
    match matchNumAt (c :: t) with
    | some (tok, _) => some tok
    | none => searchNum t

/-! ### `re.split(r'[,;\s\t]+', line)`

Modelled as: split at every single separator character (`rawSplit`), then drop
the empty fields that a run of k>1 adjacent separators leaves between its
characters.  A run of k separators yields exactly k-1 interior empty fields in
the single-character split, and `re.split` on the run pattern keeps only the
fields on either side of each maximal run, plus a leading/trailing empty field
when the string starts/ends with a separator — which is exactly `rawSplit`
with interior (neither first nor last) empty fields removed. -/

def rawSplit : List Char → List (List Char)
  | [] => [[]]
  | c :: t =>
    if isSepChar c then [] :: rawSplit t
    else
      match rawSplit t with
      | f :: rest => (c :: f) :: rest
      | [] => [[c]]

def dropMidEmpties : List (List Char) → List (List Char)
  | [] => []
  | [x] => [x]
  | x :: y :: rest =>
    if x = [] then dropMidEmpties (y :: rest)
    else x :: dropMidEmpties (y :: rest)

def splitSep (s : List Char) : List (List Char) :=
  match rawSplit s with
  | [] => []
  | f :: rest => f :: dropMidEmpties rest

/-! ### Python `float(str)` on the strings this program feeds it -/

/-- An exact decimal value `mant * 10 ^ exp`.  The representation produced
from a given literal is deterministic, so equalities between parses of the
same construction are meaningful without normalisation. -/
structure PyNum where
  mant : Int
  exp : Int
deriving DecidableEq

/-- The result of a successful CPython `float(str)` conversion, with in-range
finite values kept exact (their rounding to the nearest double is not
modelled; no claim depends on it). -/
inductive PyFloat where
  | fin (v : PyNum)
  | inf
  | neginf
  | nan
deriving DecidableEq

/-- Smallest magnitude at which CPython's string-to-double conversion rounds
to infinity: the midpoint `2^1024 - 2^970` between the largest finite double
and `2^1024` (round-half-to-even sends the midpoint itself to infinity). -/
def overflowThreshold : Nat := 2 ^ 1024 - 2 ^ 970

/-- Decides `|mant * 10 ^ exp| ≥ overflowThreshold` in integer arithmetic. -/
def pynumOverflows (v : PyNum) : Bool :=
  if 0 ≤ v.exp then
    overflowThreshold ≤ v.mant.natAbs * 10 ^ v.exp.toNat
  else
    overflowThreshold * 10 ^ (-v.exp).toNat ≤ v.mant.natAbs

def mkFinite (v : PyNum) : PyFloat :=
  if pynumOverflows v then
    if v.mant < 0 then PyFloat.neginf else PyFloat.inf
  else PyFloat.fin v

/-- The natural number denoted by a list of decimal digit characters
(most significant first); `[]` denotes 0. -/
def digitsVal (ds : List Char) : Nat :=
  ds.foldl (fun a c => 10 * a + (c.toNat - 48)) 0

/-- Case-insensitive match of one character against a lowercase letter
`target` (CPython lowercases the input before comparing with the special
spellings). -/
def lowerMatches (c target : Char) : Bool :=
  c == target || (65 ≤ c.toNat && c.toNat ≤ 90 && c.toNat + 32 == target.toNat)

/-- Case-insensitive comparison of `s` against the lowercase literal `t`. -/
def matchesLower : List Char → List Char → Bool
  | [], [] => true
  | c :: cs, t :: ts => lowerMatches c t && matchesLower cs ts
  | _, _ => false

/-- The decimal part of a `float` literal after the optional sign:
`digits [. digits] [(e|E) [sign] digits]`, needing at least one mantissa
digit, nothing left over.  Returns the exact value. -/
def decimalVal (r : List Char) : Option PyNum :=
  let r1 := spanP isDigitChar r
  let d1 := r1.1
  let afterInt := r1.2
  let withFrac :=
    match afterInt with
    | '.' :: rr =>
      let r2 := spanP isDigitChar rr
      some (r2.1, r2.2)
    | _ => some ([], afterInt)
  match withFrac with
  | some (d2, r2) =>
    if d1 = [] && d2 = [] then none
    else
      let mant : Int := Int.ofNat (digitsVal (d1 ++ d2))
      let scale : Int := Int.ofNat d2.length
      match r2 with
      | [] => some ⟨mant, -scale⟩
      | e :: r3 =>
        if e = 'e' || e = 'E' then
          let signedExp :=
            match r3 with
            | '+' :: rr => some (1, rr)
            | '-' :: rr => some (-1, rr)
            | _ => some (1, r3)
          match signedExp with
          | some (sgn, r4) =>
            let r5 := spanP isDigitChar r4
            if r5.1 = [] then none
            else if r5.2 = [] then
              some ⟨mant, (sgn : Int) * Int.ofNat (digitsVal r5.1) - scale⟩
            else none
          | none => none
        else none
  | none => none

/-- Strip of leading and trailing characters, as Python `str.strip()` (ASCII
whitespace level). -/
def pyStrip (s : List Char) : List Char :=
  ((s.dropWhile isSpaceChar).reverse.dropWhile isSpaceChar).reverse

/-- The part of CPython `float(str)` after the optional sign: the special
spellings `nan`, `inf`, `infinity` (case-insensitive) or a decimal literal;
values at or beyond the double range become infinities. -/
def pyFloatBody (neg : Bool) (r : List Char) : Option PyFloat :=
  if matchesLower r ['n', 'a', 'n'] then some PyFloat.nan
  else if matchesLower r ['i', 'n', 'f'] ||
      matchesLower r ['i', 'n', 'f', 'i', 'n', 'i', 't', 'y'] then
    some (if neg then PyFloat.neginf else PyFloat.inf)
  else
    match decimalVal r with
    | some v => some (mkFinite (if neg then ⟨-v.mant, v.exp⟩ else v))
    | none => none

/-- CPython `float(str)` on the strings this program can pass it: surrounding
whitespace stripped, an optional sign, then `pyFloatBody`.  (`none` is a
`ValueError`.) -/
def pyFloatOfStr (s : List Char) : Option PyFloat :=
  match pyStrip s with
  | [] => none
  | c :: t =>
    if c = '+' then pyFloatBody false t
    else if c = '-' then pyFloatBody true t
    else pyFloatBody false (c :: t)

/-! ### Batches: Python `dict[str, float]` with insertion order -/

/-- A sample batch, the Python `dict[str, float]` a parse returns, as an
ordered association list.  `dictInsert` is `d[k] = v`: an existing key keeps
its position and gets the new value, a new key is appended. -/
abbrev Batch := List (String × PyFloat)

def dictInsert (d : Batch) (k : String) (v : PyFloat) : Batch :=
  if d.any (fun p => p.1 == k) then
    d.map (fun p => if p.1 == k then (p.1, v) else p)
  else d ++ [(k, v)]

def lookupName (d : Batch) (k : String) : Option PyFloat :=
  (d.find? (fun p => p.1 == k)).map (fun p => p.2)

def containsKey (d : Batch) (k : String) : Bool :=
  d.any (fun p => p.1 == k)

/-! ### Decimal rendering of the positional channel index, Python `f'CH{i+1}'` -/

def natToDigitsAux (fuel n : Nat) : List Char :=
  match fuel with
  | 0 => []
  | fuel + 1 =>
    if n < 10 then [Nat.digitChar n]
    else natToDigitsAux fuel (n / 10) ++ [Nat.digitChar (n % 10)]

/-- The decimal digits of `n`, as Python `str(n)` renders a nonnegative
integer. -/
def natToDigits (n : Nat) : List Char :=
  natToDigitsAux (n + 1) n

/-- The synthetic channel name `f'CH{k}'`. -/
def chName (k : Nat) : String :=
  ⟨'C' :: 'H' :: natToDigits k⟩

/-! ### The parser, `SerialPlotterTUI.parse_line` (lines 415-444) -/

/-- The labeled branch: `for label, value in labeled_matches:
try: values[label] = float(value) except ValueError: pass`. -/
def parseLabeled (ms : List (String × List Char)) : Batch :=
  ms.foldl
    (fun d p =>
      match pyFloatOfStr p.2 with
      | some v => dictInsert d p.1 v
      | none => d)
    []

/-- The positional branch: `for i, part in enumerate(parts):` with
`re.search` for the first numeric substring and key `f'CH{i+1}'`. -/
def posGo (i : Nat) (d : Batch) : List (List Char) → Batch
  | [] => d
  | part :: rest =>
    match searchNum part with
    | some tok =>
      match pyFloatOfStr tok with
      | some v => posGo (i + 1) (dictInsert d (chName (i + 1)) v) rest
      | none => posGo (i + 1) d rest
    | none => posGo (i + 1) d rest

/-- `parse_line` after the initial `line.strip()`: empty line gives an empty
batch; if the labeled pattern has any match only the labeled branch runs,
otherwise the positional branch runs on the separator split. -/
def parseStripped (l : List Char) : Batch :=
  if l = [] then []
  else if labeledMatches l = [] then posGo 0 [] (splitSep l)
  else parseLabeled (labeledMatches l)

/-- `SerialPlotterTUI.parse_line` (lines 415-444). -/
def parse_line (line : String) : Batch :=
  parseStripped (pyStrip line.data)

/-! ### The series store, `PlotextGraph` (lines 70-80, 147-162) -/

/-- Append to a Python `deque(maxlen=cap)`: the new element goes at the end
and the oldest elements are evicted down to `cap` entries. -/
def dequeAppend (cap : Nat) (xs : List α) (x : α) : List α :=
  (xs ++ [x]).drop (xs.length + 1 - cap)

/-- The state of `PlotextGraph`: capacity, one series per measurement name in
insertion order (`None` slots are missing markers), the retained tick numbers,
and the global tick counter. -/
structure PlotextGraph where
  max_points : Nat
  data_series : List (String × List (Option PyFloat))
  timestamps : List Nat
  sample_count : Nat
deriving DecidableEq

/-- `PlotextGraph.__init__` (lines 75-80) with a nonnegative `max_points`. -/
def initGraph (cap : Nat) : PlotextGraph :=
  ⟨cap, [], [], 0⟩

/-- `PlotextGraph.__init__` as called with an arbitrary integer `max_points`:
`deque(maxlen=max_points)` raises `ValueError` for a negative bound, so a
negative capacity is fatal at construction; zero is accepted. -/
def mkPlotextGraph (max_points : Int) : Except String PlotextGraph :=
  if max_points < 0 then Except.error "maxlen must be non-negative"
  else Except.ok (initGraph max_points.toNat)

/-- One step of the first loop of `add_values`: append `v` to the series of
`label`, creating the series first when the name is new. -/
def addOneValue (cap : Nat) (ds : List (String × List (Option PyFloat)))
    (label : String) (v : PyFloat) : List (String × List (Option PyFloat)) :=
  if ds.any (fun p => p.1 == label) then
    ds.map (fun p => if p.1 == label then (p.1, dequeAppend cap p.2 (some v)) else p)
  else ds ++ [(label, dequeAppend cap [] (some v))]

/-- The second loop of `add_values`: every tracked name absent from the batch
receives a `None` missing marker this tick. -/
def fillMissing (cap : Nat) (values : Batch)
    (ds : List (String × List (Option PyFloat))) : List (String × List (Option PyFloat)) :=
  ds.map (fun p => if containsKey values p.1 then p else (p.1, dequeAppend cap p.2 none))

/-- `PlotextGraph.add_values` (lines 147-162): bump the tick, record it in
`timestamps`, append each batch value, then fill missing markers. -/
def add_values (g : PlotextGraph) (values : Batch) : PlotextGraph :=
  { g with
    sample_count := g.sample_count + 1,
    timestamps := dequeAppend g.max_points g.timestamps (g.sample_count + 1),
    data_series :=
      fillMissing g.max_points values
        (values.foldl (fun ds p => addOneValue g.max_points ds p.1 p.2) g.data_series) }

/-- Apply a sequence of parsed batches in order, one tick each. -/
def applyBatches (g : PlotextGraph) (bs : List Batch) : PlotextGraph :=
  bs.foldl add_values g

/-- The series stored for `name` in a series dictionary, if any. -/
def seriesOfD (ds : List (String × List (Option PyFloat))) (name : String) :
    Option (List (Option PyFloat)) :=
  (ds.find? (fun p => p.1 == name)).map (fun p => p.2)

/-- The series tracked for `name`, if any. -/
def seriesOf (g : PlotextGraph) (name : String) : Option (List (Option PyFloat)) :=
  seriesOfD g.data_series name

/-- The 0-based index of the first batch of `bs` that mentions `name` (the
name's first tick is this index plus one). -/
def firstAppear (name : String) : List Batch → Option Nat
  | [] => none
  | b :: bs =>
    if containsKey b name then some 0
    else (firstAppear name bs).map (fun i => i + 1)

/-! ### The latest-values table, `CurrentValues` (lines 258-293) -/

/-- `CurrentValues.update_values` (lines 275-277): Python `dict.update` —
every batch entry is assigned into the widget's mapping, nothing is ever
removed. -/
def update_values (cv : Batch) (values : Batch) : Batch :=
  values.foldl (fun d p => dictInsert d p.1 p.2) cv

/-! ### The application state touched by `action_clear` (lines 569-572) -/

/-- The pieces of `SerialPlotterTUI` state relevant to the clear action: the
serial log widget's lines, the graph store, and the latest-values mapping. -/
structure AppState where
  serial_log : List String
  graph : PlotextGraph
  current_values : Batch
deriving DecidableEq

/-- `SerialPlotterTUI.action_clear` (lines 569-572): it queries the
`#serial-log` widget and calls `log.clear()`; the graph store and the
latest-values mapping are not touched. -/
def action_clear (a : AppState) : AppState :=
  { a with serial_log := [] }

/-! ### The link supervisor, `read_serial_loop` (lines 446-511)

State: the thread-local `disconnected` flag and whether a serial handle is
currently open.  An event is a loop iteration in which something happened:
a read of a complete line (`readSuccess`), a read failing with
`SerialException`/`OSError` (`readFail`), or a reconnect attempt inside the
1-second gate (`reconnectSuccess`/`reconnectFail`).  Iterations skipped
because of the pause flag, the reconnect interval, or an empty input buffer
change nothing and emit nothing, so they are not events.  The notifications
are the `_show_disconnected` / `_show_reconnected` log calls; the initial
`connect_serial` message of `on_mount` is outside the loop and not an edge
notification. -/

structure LinkState where
  disconnected : Bool
  conn_open : Bool
deriving DecidableEq

inductive LinkEvent where
  | readSuccess
  | readFail
  | reconnectSuccess
  | reconnectFail
deriving DecidableEq

inductive LinkNote where
  | noteDisconnected
  | noteReconnected
deriving DecidableEq

/-- One loop iteration of `read_serial_loop` (lines 455-511), given which
outcome the iteration had.  Read events require an open handle and reconnect
events a closed one; an event of the wrong kind for the current state stands
for an iteration that cannot occur and changes nothing. -/
def linkStep (s : LinkState) (e : LinkEvent) : LinkState × List LinkNote :=
  if s.conn_open then
    match e with
    | LinkEvent.readFail =>
      (⟨true, false⟩, if s.disconnected then [] else [LinkNote.noteDisconnected])
    | _ => (s, [])
  else
    match e with
    | LinkEvent.reconnectSuccess =>
      (⟨false, true⟩,
        (if s.disconnected then [] else [LinkNote.noteDisconnected]) ++
          [LinkNote.noteReconnected])
    | LinkEvent.reconnectFail =>
      (⟨true, false⟩, if s.disconnected then [] else [LinkNote.noteDisconnected])
    | _ => (s, [])

/-- Run the loop over a sequence of iteration outcomes, collecting every
emitted notification in order. -/
def linkRun (s : LinkState) : List LinkEvent → LinkState × List LinkNote
  | [] => (s, [])
  | e :: es =>
    let r := linkStep s e
    let rs := linkRun r.1 es
    (rs.1, r.2 ++ rs.2)

/-! ### Association-list lemmas (Python `dict` as ordered key-value list) -/

theorem find?_fst_map {α β : Type} (f : String × α → String × β)
    (hf : ∀ p, (f p).1 = p.1) (k : String) (d : List (String × α)) :
    (d.map f).find? (fun p => p.1 == k) = (d.find? (fun p => p.1 == k)).map f := by
  induction d with
  | nil => rfl
  | cons p t ih =>
    simp only [List.map_cons, List.find?_cons, hf p]
    cases h : (p.1 == k) <;> simp [h, ih]

theorem containsKey_iff_lookupName (d : Batch) (k : String) :
    containsKey d k = true ↔ (lookupName d k).isSome = true := by
  simp [containsKey, lookupName, List.any_eq_true, List.find?_isSome]

theorem lookupName_dictInsert_self (d : Batch) (k : String) (v : PyFloat) :
    lookupName (dictInsert d k v) k = some v := by
  unfold dictInsert lookupName
  by_cases h : d.any (fun p => p.1 == k)
  · rw [if_pos h,
      find?_fst_map (fun p => if p.1 == k then (p.1, v) else p)
        (fun p => by by_cases hp : (p.1 == k) = true <;> simp [hp]) k]
    have hs : (d.find? (fun p => p.1 == k)).isSome := by
      rw [List.find?_isSome]
      exact List.any_eq_true.mp h
    obtain ⟨q, hq⟩ := Option.isSome_iff_exists.mp hs
    have hpq : q.1 = k := by simpa using List.find?_some hq
    rw [hq]
    simp [hpq]
  · rw [if_neg h]
    have hn : d.find? (fun p => p.1 == k) = none := by
      rw [List.find?_eq_none]
      intro x hx hpx
      exact h (List.any_eq_true.mpr ⟨x, hx, hpx⟩)
    rw [List.find?_append, hn]
    simp [List.find?]

theorem lookupName_dictInsert_ne (d : Batch) (k : String) (v : PyFloat)
    (k' : String) (h : k' ≠ k) :
    lookupName (dictInsert d k v) k' = lookupName d k' := by
  unfold dictInsert lookupName
  by_cases hak : d.any (fun p => p.1 == k)
  · rw [if_pos hak,
      find?_fst_map (fun p => if p.1 == k then (p.1, v) else p)
        (fun p => by by_cases hp : (p.1 == k) = true <;> simp [hp]) k']
    cases hf : d.find? (fun p => p.1 == k') with
    | none => simp
    | some q =>
      have hq : q.1 = k' := by simpa using List.find?_some hf
      simp [hq, h]
  · rw [if_neg hak, List.find?_append]
    cases hf : d.find? (fun p => p.1 == k') with
    | some q => simp
    | none =>
      have : (k == k') = false := beq_eq_false_iff_ne.mpr (Ne.symm h)
      simp [List.find?, this]

theorem mem_dictInsert (d : Batch) (k : String) (v : PyFloat)
    (p : String × PyFloat) (h : p ∈ dictInsert d k v) : p ∈ d ∨ p.2 = v := by
  unfold dictInsert at h
  by_cases hak : d.any (fun q => q.1 == k)
  · rw [if_pos hak] at h
    obtain ⟨q, hq, hfq⟩ := List.mem_map.mp h
    by_cases hk : (q.1 == k) = true
    · right
      rw [if_pos hk] at hfq
      rw [← hfq]
    · left
      rw [if_neg hk] at hfq
      rw [← hfq]
      exact hq
  · rw [if_neg hak] at h
    rcases List.mem_append.mp h with h | h
    · exact Or.inl h
    · right
      rcases List.mem_singleton.mp h with rfl
      rfl

/-! ### The labeled branch: last occurrence of a duplicate name wins -/

/-- The value the claim predicts for `name`: the last labeled match of that
name whose token converts, if any. -/
def lastLabeledVal (ms : List (String × List Char)) (name : String) : Option PyFloat :=
  (ms.filterMap (fun p => if p.1 = name then pyFloatOfStr p.2 else none)).getLast?

theorem getLast?_cons_eq_or {α : Type} (v : α) (rest : List α) :
    (v :: rest).getLast? = (rest.getLast?).or (some v) := by
  induction rest generalizing v with
  | nil => rfl
  | cons r rs ih =>
    rw [List.getLast?_cons_cons, ih r]
    cases hrs : rs.getLast? <;> simp

theorem lookupName_parseLabeled_fold (ms : List (String × List Char))
    (d : Batch) (name : String) :
    lookupName
      (ms.foldl
        (fun d p =>
          match pyFloatOfStr p.2 with
          | some v => dictInsert d p.1 v
          | none => d)
        d)
      name =
    ((ms.filterMap (fun p => if p.1 = name then pyFloatOfStr p.2 else none)).getLast?).or
      (lookupName d name) := by
  induction ms generalizing d with
  | nil => simp
  | cons q ms ih =>
    rw [List.foldl_cons, List.filterMap_cons]
    cases hv : pyFloatOfStr q.2 with
    | none =>
      by_cases hq : q.1 = name
      · simp only [hv, ih, if_pos hq]
      · simp only [hv, ih, if_neg hq]
    | some v =>
      by_cases hq : q.1 = name
      · simp only [hv, ih, if_pos hq]
        rw [hq, lookupName_dictInsert_self, getLast?_cons_eq_or, Option.or_assoc]
        simp
      · simp only [hv, ih, if_neg hq]
        rw [lookupName_dictInsert_ne _ _ _ _ (fun he => hq he.symm)]

theorem lookupName_parseLabeled (ms : List (String × List Char)) (name : String) :
    lookupName (parseLabeled ms) name = lastLabeledVal ms name := by
  unfold parseLabeled lastLabeledVal
  rw [lookupName_parseLabeled_fold]
  cases h : (List.filterMap (fun p => if p.1 = name then pyFloatOfStr p.2 else none) ms).getLast? <;>
    simp [lookupName]

/-! ### Injectivity of the synthetic channel names `CH<n>` -/

theorem digitChar_toNat_sub (m : Nat) (h : m < 10) :
    (Nat.digitChar m).toNat - 48 = m := by
  interval_cases m <;> rfl

theorem digitsVal_concat (xs : List Char) (c : Char) :
    digitsVal (xs ++ [c]) = 10 * digitsVal xs + (c.toNat - 48) := by
  unfold digitsVal
  rw [List.foldl_append]
  rfl

theorem digitsVal_natToDigitsAux (fuel n : Nat) (h : n < fuel) :
    digitsVal (natToDigitsAux fuel n) = n := by
  induction fuel generalizing n with
  | zero => omega
  | succ fuel ih =>
    unfold natToDigitsAux
    by_cases h10 : n < 10
    · rw [if_pos h10]
      show 10 * 0 + ((Nat.digitChar n).toNat - 48) = n
      rw [digitChar_toNat_sub n h10]
      omega
    · rw [if_neg h10]
      have hdiv : n / 10 < fuel := by
        have : n / 10 < n := Nat.div_lt_self (by omega) (by omega)
        omega
      rw [digitsVal_concat, ih (n / 10) hdiv, digitChar_toNat_sub (n % 10) (Nat.mod_lt n (by omega))]
      omega

theorem natToDigits_val (n : Nat) : digitsVal (natToDigits n) = n :=
  digitsVal_natToDigitsAux (n + 1) n (Nat.lt_succ_self n)

theorem chName_inj {a b : Nat} (h : chName a = chName b) : a = b := by
  unfold chName at h
  have hd : natToDigits a = natToDigits b := by
    have := congrArg String.data h
    simpa using this
  have := congrArg digitsVal hd
  rwa [natToDigits_val, natToDigits_val] at this

/-! ### The positional branch: field `j` (0-based) feeds exactly `CH<j+1>` -/

theorem lookupName_posGo_out (ps : List (List Char)) (i : Nat) (d : Batch)
    (m : Nat) (h : m < i + 1 ∨ i + ps.length < m) :
    lookupName (posGo i d ps) (chName m) = lookupName d (chName m) := by
  induction ps generalizing i d with
  | nil => rfl
  | cons part rest ih =>
    have hm : m ≠ i + 1 := by
      simp only [List.length_cons] at h
      omega
    have hne : chName m ≠ chName (i + 1) := fun he => hm (chName_inj he)
    have hnext : m < (i + 1) + 1 ∨ (i + 1) + rest.length < m := by
      simp only [List.length_cons] at h
      omega
    cases hs : searchNum part with
    | none =>
      simp only [posGo, hs]
      exact ih (i + 1) d hnext
    | some tok =>
      cases hv : pyFloatOfStr tok with
      | none =>
        simp only [posGo, hs, hv]
        exact ih (i + 1) d hnext
      | some v =>
        simp only [posGo, hs, hv]
        rw [ih (i + 1) _ hnext, lookupName_dictInsert_ne _ _ _ _ hne]

theorem lookupName_posGo_in (ps : List (List Char)) (i : Nat) (d : Batch)
    (j : Nat) (part : List Char) (hj : ps.get? j = some part)
    (hd : lookupName d (chName (i + j + 1)) = none) :
    lookupName (posGo i d ps) (chName (i + j + 1)) =
      (searchNum part).bind pyFloatOfStr := by
  induction ps generalizing i d j with
  | nil => exact absurd hj (by simp)
  | cons hdp rest ih =>
    cases j with
    | zero =>
      have hpart : hdp = part := by simpa using hj
      subst hpart
      have hzero : i + 0 + 1 = i + 1 := by omega
      cases hs : searchNum hdp with
      | none =>
        simp only [posGo, hs]
        rw [lookupName_posGo_out rest (i + 1) d (i + 0 + 1) (Or.inl (by omega)), hd]
        rfl
      | some tok =>
        cases hv : pyFloatOfStr tok with
        | none =>
          simp only [posGo, hs, hv]
          rw [lookupName_posGo_out rest (i + 1) d (i + 0 + 1) (Or.inl (by omega)), hd]
          simp [hv]
        | some v =>
          simp only [posGo, hs, hv]
          rw [lookupName_posGo_out rest (i + 1) _ (i + 0 + 1) (Or.inl (by omega)), hzero,
            lookupName_dictInsert_self]
          simp [hv]
    | succ j' =>
      have hj' : rest.get? j' = some part := by simpa using hj
      have hidx : i + (j' + 1) + 1 = (i + 1) + j' + 1 := by omega
      rw [hidx] at hd ⊢
      cases hs : searchNum hdp with
      | none =>
        simp only [posGo, hs]
        exact ih (i + 1) d j' hj' hd
      | some tok =>
        cases hv : pyFloatOfStr tok with
        | none =>
          simp only [posGo, hs, hv]
          exact ih (i + 1) d j' hj' hd
        | some v =>
          simp only [posGo, hs, hv]
          refine ih (i + 1) _ j' hj' ?_
          have hne : chName ((i + 1) + j' + 1) ≠ chName (i + 1) := by
            intro he
            have := chName_inj he
            omega
          rw [lookupName_dictInsert_ne _ _ _ _ hne, hd]

/-! ### Values the parser stores are never NaN

Every value a batch receives is `pyFloatOfStr` of a token produced by the
numeric matcher, and such tokens consist of digits, signs and dots only —
so the case-insensitive `nan` spelling that CPython's `float` maps to NaN can
never be hit. -/

theorem isNumTokenChar_of_digit (c : Char) (h : isDigitChar c = true) :
    isNumTokenChar c = true := by
  simp [isNumTokenChar, h]

theorem numTokenChar_toNat_le (c : Char) (h : isNumTokenChar c = true) :
    c.toNat ≤ 57 := by
  simp only [isNumTokenChar, isDigitChar, Bool.or_eq_true, Bool.and_eq_true,
    decide_eq_true_eq] at h
  omega

theorem numTokenChar_not_space (c : Char) (h : isNumTokenChar c = true) :
    isSpaceChar c = false := by
  simp only [isNumTokenChar, isDigitChar, Bool.or_eq_true, Bool.and_eq_true,
    decide_eq_true_eq] at h
  simp only [isSpaceChar, Bool.or_eq_false_iff, decide_eq_false_iff_not]
  omega

theorem dropWhile_eq_self_of_none {α : Type} (p : α → Bool) (s : List α)
    (h : ∀ c ∈ s, p c = false) : s.dropWhile p = s := by
  cases s with
  | nil => rfl
  | cons c t => simp [List.dropWhile, h c (List.mem_cons_self c t)]

theorem pyStrip_eq_self (s : List Char) (h : ∀ c ∈ s, isSpaceChar c = false) :
    pyStrip s = s := by
  unfold pyStrip
  rw [dropWhile_eq_self_of_none _ s h,
    dropWhile_eq_self_of_none _ s.reverse (fun c hc => h c (List.mem_reverse.mp hc)),
    List.reverse_reverse]

theorem lowerMatches_num_false (c tgt : Char) (hc : isNumTokenChar c = true)
    (ht : 97 ≤ tgt.toNat) : lowerMatches c tgt = false := by
  have hle := numTokenChar_toNat_le c hc
  simp only [lowerMatches, Bool.or_eq_false_iff, Bool.and_eq_false_iff]
  constructor
  · rw [beq_eq_false_iff_ne]
    intro he
    rw [he] at hle
    omega
  · left
    left
    simp only [decide_eq_false_iff_not]
    omega

theorem matchesLower_num_false (s t : List Char) (c0 : Char)
    (h97 : 97 ≤ c0.toNat) (hs : ∀ c ∈ s, isNumTokenChar c = true) :
    matchesLower s (c0 :: t) = false := by
  cases s with
  | nil => rfl
  | cons c cs =>
    simp only [matchesLower,
      lowerMatches_num_false c c0 (hs c (List.mem_cons_self c cs)) h97,
      Bool.false_and]

theorem mkFinite_ne_nan (v : PyNum) : mkFinite v ≠ PyFloat.nan := by
  unfold mkFinite
  by_cases h : pynumOverflows v = true
  · rw [if_pos h]
    by_cases hm : v.mant < 0 <;> simp [hm]
  · rw [if_neg h]
    simp

theorem pyFloatBody_ne_nan (neg : Bool) (r : List Char)
    (hr : ∀ c ∈ r, isNumTokenChar c = true) :
    pyFloatBody neg r ≠ some PyFloat.nan := by
  cases r with
  | nil => cases neg <;> decide
  | cons c cs =>
    unfold pyFloatBody
    rw [matchesLower_num_false (c :: cs) _ 'n' (by decide) hr,
      matchesLower_num_false (c :: cs) _ 'i' (by decide) hr,
      matchesLower_num_false (c :: cs) _ 'i' (by decide) hr]
    simp only [Bool.false_or, Bool.false_eq_true, if_false]
    cases hdv : decimalVal (c :: cs) with
    | none => simp
    | some v =>
      simp only [Option.some.injEq]
      intro he
      cases neg with
      | true => exact mkFinite_ne_nan _ (by simpa using he)
      | false => exact mkFinite_ne_nan _ (by simpa using he)

theorem pyFloatOfStr_ne_nan (t : List Char)
    (h : ∀ c ∈ t, isNumTokenChar c = true) :
    pyFloatOfStr t ≠ some PyFloat.nan := by
  unfold pyFloatOfStr
  rw [pyStrip_eq_self t (fun c hc => numTokenChar_not_space c (h c hc))]
  cases t with
  | nil => simp
  | cons c tl =>
    have htl : ∀ x ∈ tl, isNumTokenChar x = true :=
      fun x hx => h x (List.mem_cons_of_mem c hx)
    show (if c = '+' then pyFloatBody false tl
        else if c = '-' then pyFloatBody true tl
        else pyFloatBody false (c :: tl)) ≠ some PyFloat.nan
    by_cases hp : c = '+'
    · rw [if_pos hp]
      exact pyFloatBody_ne_nan false tl htl
    · rw [if_neg hp]
      by_cases hm : c = '-'
      · rw [if_pos hm]
        exact pyFloatBody_ne_nan true tl htl
      · rw [if_neg hm]
        exact pyFloatBody_ne_nan false (c :: tl) h

theorem matchNumBody_chars (s tok rest : List Char)
    (h : matchNumBody s = some (tok, rest)) :
    ∀ c ∈ tok, isNumTokenChar c = true := by
  simp only [matchNumBody] at h
  by_cases h1 : (spanP isDigitChar s).1 = []
  · rw [if_pos h1] at h
    split at h
    · rename_i rr heq
      by_cases h2 : (spanP isDigitChar rr).1 = []
      · rw [if_pos h2] at h
        cases h
      · rw [if_neg h2] at h
        injection h with h
        injection h with htok hrest
        subst htok
        intro c hc
        rcases List.mem_cons.mp hc with rfl | hc
        · decide
        · exact isNumTokenChar_of_digit c (spanP_fst_sat isDigitChar rr c hc)
    · cases h
  · rw [if_neg h1] at h
    split at h
    · rename_i rr heq
      by_cases h2 : (spanP isDigitChar rr).1 = []
      · rw [if_pos h2] at h
        injection h with h
        injection h with htok hrest
        subst htok
        intro c hc
        exact isNumTokenChar_of_digit c (spanP_fst_sat isDigitChar s c hc)
      · rw [if_neg h2] at h
        injection h with h
        injection h with htok hrest
        subst htok
        intro c hc
        rcases List.mem_append.mp hc with hc | hc
        · exact isNumTokenChar_of_digit c (spanP_fst_sat isDigitChar s c hc)
        · rcases List.mem_cons.mp hc with rfl | hc
          · decide
          · exact isNumTokenChar_of_digit c (spanP_fst_sat isDigitChar rr c hc)
    · injection h with h
      injection h with htok hrest
      subst htok
      intro c hc
      exact isNumTokenChar_of_digit c (spanP_fst_sat isDigitChar s c hc)

theorem matchNumAt_chars (s tok rest : List Char)
    (h : matchNumAt s = some (tok, rest)) :
    ∀ c ∈ tok, isNumTokenChar c = true := by
  cases s with
  | nil => cases h
  | cons c t =>
    simp only [matchNumAt] at h
    by_cases hc : (c = '+' || c = '-') = true
    · rw [if_pos hc] at h
      cases hb : matchNumBody t with
      | none => rw [hb] at h; cases h
      | some pr =>
        obtain ⟨tok0, rest0⟩ := pr
        rw [hb] at h
        injection h with h
        injection h with htok hrest
        subst htok
        intro x hx
        rcases List.mem_cons.mp hx with rfl | hx
        · have hc' : x = '+' ∨ x = '-' := by simpa using hc
          rcases hc' with rfl | rfl <;> decide
        · exact matchNumBody_chars t tok0 rest0 hb x hx
    · rw [if_neg hc] at h
      exact matchNumBody_chars (c :: t) tok rest h

theorem searchNum_chars (part tok : List Char) (h : searchNum part = some tok) :
    ∀ c ∈ tok, isNumTokenChar c = true := by
  induction part with
  | nil => cases h
  | cons c t ih =>
    unfold searchNum at h
    cases hm : matchNumAt (c :: t) with
    | some pr =>
      obtain ⟨tok0, rest0⟩ := pr
      rw [hm] at h
      injection h with h
      subst h
      exact matchNumAt_chars (c :: t) tok0 rest0 hm
    | none =>
      rw [hm] at h
      exact ih h

theorem matchLabeledAt_chars (s : List Char) (lab : String) (tok rest : List Char)
    (h : matchLabeledAt s = some (lab, tok, rest)) :
    ∀ c ∈ tok, isNumTokenChar c = true := by
  simp only [matchLabeledAt] at h
  by_cases h1 : (spanP isWordChar s).1 = []
  · rw [if_pos h1] at h
    cases h
  · rw [if_neg h1] at h
    split at h
    · rename_i c r3 heq
      by_cases h2 : (c = ':' || c = '=') = true
      · rw [if_pos h2] at h
        cases hm : matchNumAt (spanP isSpaceChar r3).2 with
        | none => rw [hm] at h; cases h
        | some pr =>
          rw [hm] at h
          injection h with h
          injection h with hlab h
          injection h with htok hrest
          subst htok
          exact matchNumAt_chars _ pr.1 pr.2 (by rw [hm])
      · rw [if_neg h2] at h
        cases h
    · cases h

theorem findallAux_chars (fuel : Nat) (s : List Char) (lab : String)
    (tok : List Char) (h : (lab, tok) ∈ findallAux fuel s) :
    ∀ c ∈ tok, isNumTokenChar c = true := by
  induction fuel generalizing s with
  | zero => cases h
  | succ fuel ih =>
    cases hm : matchLabeledAt s with
    | some pr =>
      obtain ⟨lab0, tok0, rest0⟩ := pr
      simp only [findallAux, hm] at h
      rcases List.mem_cons.mp h with he | h
      · injection he with he1 he2
        rw [he2]
        exact matchLabeledAt_chars s lab0 tok0 rest0 hm
      · exact ih rest0 h
    | none =>
      simp only [findallAux, hm] at h
      cases s with
      | nil => cases h
      | cons c t => exact ih t h

theorem mem_labeledFold (ms : List (String × List Char)) (d : Batch)
    (p : String × PyFloat)
    (h : p ∈ ms.foldl
      (fun d q =>
        match pyFloatOfStr q.2 with
        | some v => dictInsert d q.1 v
        | none => d)
      d) :
    p ∈ d ∨ ∃ q ∈ ms, pyFloatOfStr q.2 = some p.2 := by
  induction ms generalizing d with
  | nil => exact Or.inl h
  | cons q ms ih =>
    rw [List.foldl_cons] at h
    rcases ih _ h with h1 | ⟨q', hq', hv⟩
    · cases hv : pyFloatOfStr q.2 with
      | some v =>
        rw [hv] at h1
        rcases mem_dictInsert _ _ _ _ h1 with h2 | h2
        · exact Or.inl h2
        · exact Or.inr ⟨q, List.mem_cons_self q ms, by rw [hv, h2]⟩
      | none =>
        rw [hv] at h1
        exact Or.inl h1
    · exact Or.inr ⟨q', List.mem_cons_of_mem q hq', hv⟩

theorem mem_posGo (ps : List (List Char)) (i : Nat) (d : Batch)
    (p : String × PyFloat) (h : p ∈ posGo i d ps) :
    p ∈ d ∨ ∃ part ∈ ps, ∃ tok, searchNum part = some tok ∧
      pyFloatOfStr tok = some p.2 := by
  induction ps generalizing i d with
  | nil => exact Or.inl h
  | cons part rest ih =>
    cases hs : searchNum part with
    | none =>
      simp only [posGo, hs] at h
      rcases ih _ _ h with h1 | ⟨part', hp', tok', hs', hv'⟩
      · exact Or.inl h1
      · exact Or.inr ⟨part', List.mem_cons_of_mem part hp', tok', hs', hv'⟩
    | some tok =>
      cases hv : pyFloatOfStr tok with
      | none =>
        simp only [posGo, hs, hv] at h
        rcases ih _ _ h with h1 | ⟨part', hp', tok', hs', hv'⟩
        · exact Or.inl h1
        · exact Or.inr ⟨part', List.mem_cons_of_mem part hp', tok', hs', hv'⟩
      | some v =>
        simp only [posGo, hs, hv] at h
        rcases ih _ _ h with h1 | ⟨part', hp', tok', hs', hv'⟩
        · rcases mem_dictInsert _ _ _ _ h1 with h2 | h2
          · exact Or.inl h2
          · exact Or.inr ⟨part, List.mem_cons_self part rest, tok, hs, by rw [hv, h2]⟩
        · exact Or.inr ⟨part', List.mem_cons_of_mem part hp', tok', hs', hv'⟩

theorem parse_values_not_nan (line : String) (p : String × PyFloat)
    (h : p ∈ parse_line line) : p.2 ≠ PyFloat.nan := by
  unfold parse_line parseStripped at h
  by_cases h0 : pyStrip line.data = []
  · rw [if_pos h0] at h
    cases h
  · rw [if_neg h0] at h
    by_cases h1 : labeledMatches (pyStrip line.data) = []
    · rw [if_pos h1] at h
      rcases mem_posGo _ _ _ _ h with h2 | ⟨part, hp, tok, hs, hv⟩
      · cases h2
      · intro he
        rw [he] at hv
        exact pyFloatOfStr_ne_nan tok (searchNum_chars part tok hs) hv
    · rw [if_neg h1] at h
      rcases mem_labeledFold _ _ _ h with h2 | ⟨q, hq, hv⟩
      · cases h2
      · intro he
        rw [he] at hv
        exact pyFloatOfStr_ne_nan q.2
          (findallAux_chars (pyStrip line.data).length.succ (pyStrip line.data) q.1 q.2 hq) hv

/-! ### Store invariant: series lengths against ticks and first appearances -/

theorem dequeAppend_length {α : Type} (cap : Nat) (xs : List α) (x : α) :
    (dequeAppend cap xs x).length = min cap (xs.length + 1) := by
  unfold dequeAppend
  rw [List.length_drop, List.length_append]
  simp only [List.length_cons, List.length_nil]
  omega

theorem containsKey_false_lookupName (b : Batch) (name : String)
    (h : containsKey b name = false) : lookupName b name = none := by
  unfold containsKey at h
  unfold lookupName
  rw [List.find?_eq_none.mpr]
  · rfl
  · intro x hx hpx
    have hcontra : b.any (fun p => p.1 == name) = true :=
      List.any_eq_true.mpr ⟨x, hx, hpx⟩
    rw [h] at hcontra
    cases hcontra

theorem seriesOfD_addOne_self (cap : Nat) (ds : List (String × List (Option PyFloat)))
    (l : String) (v : PyFloat) :
    seriesOfD (addOneValue cap ds l v) l =
      some (dequeAppend cap ((seriesOfD ds l).getD []) (some v)) := by
  unfold addOneValue seriesOfD
  by_cases h : ds.any (fun p => p.1 == l)
  · rw [if_pos h,
      find?_fst_map (fun p => if p.1 == l then (p.1, dequeAppend cap p.2 (some v)) else p)
        (fun p => by by_cases hp : (p.1 == l) = true <;> simp [hp]) l]
    have hs : (ds.find? (fun p => p.1 == l)).isSome := by
      rw [List.find?_isSome]
      exact List.any_eq_true.mp h
    obtain ⟨q, hq⟩ := Option.isSome_iff_exists.mp hs
    have hpq : q.1 = l := by simpa using List.find?_some hq
    rw [hq]
    simp [hpq]
  · rw [if_neg h]
    have hn : ds.find? (fun p => p.1 == l) = none := by
      rw [List.find?_eq_none]
      intro x hx hpx
      exact h (List.any_eq_true.mpr ⟨x, hx, hpx⟩)
    rw [List.find?_append, hn]
    simp [List.find?]

theorem seriesOfD_addOne_ne (cap : Nat) (ds : List (String × List (Option PyFloat)))
    (l : String) (v : PyFloat) (name : String) (h : name ≠ l) :
    seriesOfD (addOneValue cap ds l v) name = seriesOfD ds name := by
  unfold addOneValue seriesOfD
  by_cases hak : ds.any (fun p => p.1 == l)
  · rw [if_pos hak,
      find?_fst_map (fun p => if p.1 == l then (p.1, dequeAppend cap p.2 (some v)) else p)
        (fun p => by by_cases hp : (p.1 == l) = true <;> simp [hp]) name]
    cases hf : ds.find? (fun p => p.1 == name) with
    | none => simp
    | some q =>
      have hq : q.1 = name := by simpa using List.find?_some hf
      simp [hq, h]
  · rw [if_neg hak, List.find?_append]
    cases hf : ds.find? (fun p => p.1 == name) with
    | some q => simp
    | none =>
      have : (l == name) = false := beq_eq_false_iff_ne.mpr (fun he => h he.symm)
      simp [List.find?, this]

theorem seriesOfD_foldBatch (cap : Nat) (b : Batch) (hb : (b.map Prod.fst).Nodup)
    (ds : List (String × List (Option PyFloat))) (name : String) :
    seriesOfD (b.foldl (fun ds p => addOneValue cap ds p.1 p.2) ds) name =
      match lookupName b name with
      | some v => some (dequeAppend cap ((seriesOfD ds name).getD []) (some v))
      | none => seriesOfD ds name := by
  induction b generalizing ds with
  | nil => rfl
  | cons q b ih =>
    rw [List.map_cons, List.nodup_cons] at hb
    rw [List.foldl_cons, ih hb.2]
    by_cases hq : q.1 = name
    · have hnb : lookupName b name = none := by
        apply containsKey_false_lookupName
        rw [← Bool.not_eq_true]
        intro hc
        obtain ⟨x, hx, hpx⟩ := List.any_eq_true.mp hc
        have : x.1 = name := by simpa using hpx
        exact hb.1 (hq ▸ this ▸ List.mem_map_of_mem Prod.fst hx)
      have hlq : lookupName (q :: b) name = some q.2 := by
        unfold lookupName
        rw [List.find?_cons]
        have : (q.1 == name) = true := beq_iff_eq.mpr hq
        simp [this]
      rw [hnb, hlq]
      show seriesOfD (addOneValue cap ds q.1 q.2) name =
        some (dequeAppend cap ((seriesOfD ds name).getD []) (some q.2))
      rw [← hq]
      exact seriesOfD_addOne_self cap ds q.1 q.2
    · have hlq : lookupName (q :: b) name = lookupName b name := by
        unfold lookupName
        rw [List.find?_cons]
        have : (q.1 == name) = false := beq_eq_false_iff_ne.mpr (fun he => hq he)
        simp [this]
      rw [hlq, seriesOfD_addOne_ne cap ds q.1 q.2 name (fun he => hq he.symm)]

theorem seriesOfD_fillMissing (cap : Nat) (values : Batch)
    (ds : List (String × List (Option PyFloat))) (name : String) :
    seriesOfD (fillMissing cap values ds) name =
      (seriesOfD ds name).map
        (fun s => if containsKey values name then s else dequeAppend cap s none) := by
  unfold fillMissing seriesOfD
  rw [find?_fst_map
    (fun p => if containsKey values p.1 then p else (p.1, dequeAppend cap p.2 none))
    (fun p => by by_cases hp : containsKey values p.1 = true <;> simp [hp]) name]
  cases hf : ds.find? (fun p => p.1 == name) with
  | none => simp
  | some q =>
    have hq : q.1 = name := by simpa using List.find?_some hf
    by_cases hck : containsKey values name = true <;> simp [hq, hck]

theorem seriesOf_add_values (g : PlotextGraph) (b : Batch)
    (hb : (b.map Prod.fst).Nodup) (name : String) :
    seriesOf (add_values g b) name =
      match seriesOf g name, lookupName b name with
      | some s, some v => some (dequeAppend g.max_points s (some v))
      | some s, none => some (dequeAppend g.max_points s none)
      | none, some v => some (dequeAppend g.max_points [] (some v))
      | none, none => none := by
  show seriesOfD (fillMissing g.max_points b
    (b.foldl (fun ds p => addOneValue g.max_points ds p.1 p.2) g.data_series)) name = _
  rw [seriesOfD_fillMissing, seriesOfD_foldBatch g.max_points b hb]
  cases hl : lookupName b name with
  | some v =>
    have hck : containsKey b name = true :=
      (containsKey_iff_lookupName b name).mpr (by rw [hl]; rfl)
    cases ho : seriesOfD g.data_series name with
    | some s => simp [seriesOf, ho, hck]
    | none => simp [seriesOf, ho, hck]
  | none =>
    have hck : containsKey b name = false := by
      rw [← Bool.not_eq_true, (containsKey_iff_lookupName b name)]
      rw [hl]
      simp
    cases ho : seriesOfD g.data_series name with
    | some s => simp [seriesOf, ho, hck]
    | none => simp [seriesOf, ho, hck]

theorem firstAppear_append (name : String) (bs : List Batch) (b : Batch) :
    firstAppear name (bs ++ [b]) =
      match firstAppear name bs with
      | some i => some i
      | none => if containsKey b name then some bs.length else none := by
  induction bs with
  | nil =>
    show (if containsKey b name then some 0 else (firstAppear name []).map (fun i => i + 1)) = _
    by_cases h : containsKey b name = true <;> simp [firstAppear, h]
  | cons b0 bs ih =>
    show (if containsKey b0 name then some 0
      else (firstAppear name (bs ++ [b])).map (fun i => i + 1)) = _
    by_cases h0 : containsKey b0 name = true
    · simp [firstAppear, h0]
    · rw [if_neg (by simpa using h0), ih]
      cases hfa : firstAppear name bs with
      | some i => simp [firstAppear, h0, hfa]
      | none =>
        by_cases hc : containsKey b name = true <;>
          simp [firstAppear, h0, hfa, hc, List.length_cons]

theorem firstAppear_lt_length (name : String) (bs : List Batch) (i : Nat)
    (h : firstAppear name bs = some i) : i < bs.length := by
  induction bs generalizing i with
  | nil => cases h
  | cons b bs ih =>
    unfold firstAppear at h
    by_cases hc : containsKey b name = true
    · rw [if_pos hc] at h
      injection h with h
      simp only [List.length_cons]
      omega
    · rw [if_neg hc] at h
      obtain ⟨i', hi', rfl⟩ := Option.map_eq_some'.mp h
      have := ih i' hi'
      simp only [List.length_cons]
      omega

theorem range'_concat_nat (s n : Nat) :
    List.range' s n ++ [s + n] = List.range' s (n + 1) := by
  have h := List.range'_append s n 1 1
  simp only [Nat.one_mul, List.range'_one] at h
  rw [h, Nat.add_comm]

theorem drop_range' (k s n : Nat) :
    (List.range' s n).drop k = List.range' (s + k) (n - k) := by
  induction k generalizing s n with
  | zero => simp
  | succ k ih =>
    cases n with
    | zero => simp
    | succ n =>
      rw [List.range'_succ, List.drop_succ_cons, ih]
      have h1 : s + 1 + k = s + (k + 1) := by omega
      have h2 : n - k = n + 1 - (k + 1) := by omega
      rw [h1, h2]

theorem dequeAppend_timestamps (cap n : Nat) :
    dequeAppend cap (List.range' (n - min cap n + 1) (min cap n)) (n + 1) =
      List.range' ((n + 1) - min cap (n + 1) + 1) (min cap (n + 1)) := by
  have hm : min cap n ≤ n := Nat.min_le_right cap n
  have hcat : List.range' (n - min cap n + 1) (min cap n) ++ [n + 1] =
      List.range' (n - min cap n + 1) (min cap n + 1) := by
    have he : (n - min cap n + 1) + min cap n = n + 1 := by omega
    rw [← range'_concat_nat, he]
  unfold dequeAppend
  rw [List.length_range', hcat, drop_range']
  congr 1 <;> omega

/-- The inductive invariant of the series store after applying `bs` to a
fresh store of capacity `cap`: the tick counter equals the number of batches,
the retained ticks are the trailing window, a name is tracked exactly when
some batch mentioned it, and each tracked series has length
`min cap (ticks since the name first appeared)`. -/
def StoreInv (cap : Nat) (bs : List Batch) (g : PlotextGraph) : Prop :=
  g.max_points = cap ∧
  g.sample_count = bs.length ∧
  g.timestamps = List.range' (bs.length - min cap bs.length + 1) (min cap bs.length) ∧
  (∀ name, seriesOf g name = none ↔ firstAppear name bs = none) ∧
  (∀ name s i, seriesOf g name = some s → firstAppear name bs = some i →
    s.length = min cap (bs.length - i))

theorem storeInv_nil (cap : Nat) : StoreInv cap [] (initGraph cap) := by
  refine ⟨rfl, rfl, by simp [initGraph, List.range'], ?_, ?_⟩
  · intro name
    constructor <;> intro <;> rfl
  · intro name s i h
    cases h

theorem storeInv_step (cap : Nat) (bs : List Batch) (g : PlotextGraph)
    (b : Batch) (hInv : StoreInv cap bs g) (hb : (b.map Prod.fst).Nodup) :
    StoreInv cap (bs ++ [b]) (add_values g b) := by
  obtain ⟨hcap, hsc, hts, hiff, hlen⟩ := hInv
  have hsc' : (add_values g b).sample_count = bs.length + 1 := by
    show g.sample_count + 1 = bs.length + 1
    omega
  refine ⟨hcap, by simpa using hsc', ?_, ?_, ?_⟩
  · show dequeAppend g.max_points g.timestamps (g.sample_count + 1) = _
    rw [hcap, hts, hsc, dequeAppend_timestamps cap bs.length]
    simp
  · intro name
    rw [seriesOf_add_values g b hb name, firstAppear_append]
    cases ho : seriesOf g name with
    | none =>
      have hfa : firstAppear name bs = none := (hiff name).mp ho
      rw [hfa]
      cases hl : lookupName b name with
      | none =>
        have hck : containsKey b name = false := by
          rw [← Bool.not_eq_true, containsKey_iff_lookupName b name, hl]
          simp
        simp [hck]
      | some v =>
        have hck : containsKey b name = true :=
          (containsKey_iff_lookupName b name).mpr (by rw [hl]; rfl)
        simp [hck]
    | some s =>
      have hfa : firstAppear name bs ≠ none := by
        intro hn
        rw [(hiff name).mpr hn] at ho
        cases ho
      obtain ⟨i, hi⟩ := Option.ne_none_iff_exists'.mp hfa
      rw [hi]
      cases hl : lookupName b name <;> simp
  · intro name s' i h1 h2
    rw [seriesOf_add_values g b hb name] at h1
    rw [firstAppear_append] at h2
    rw [List.length_append, List.length_singleton]
    cases ho : seriesOf g name with
    | some s =>
      obtain ⟨j, hj⟩ := Option.ne_none_iff_exists'.mp
        (show firstAppear name bs ≠ none by
          intro hn
          rw [(hiff name).mpr hn] at ho
          cases ho)
      rw [hj] at h2
      have hij : i = j := by
        simp only at h2
        injection h2 with h2
        omega
      subst hij
      have hjlt : i < bs.length := firstAppear_lt_length name bs i hj
      have hslen : s.length = min cap (bs.length - i) := hlen name s i ho hj
      cases hl : lookupName b name with
      | some v =>
        rw [ho, hl] at h1
        injection h1 with h1
        rw [← h1, dequeAppend_length, hcap, hslen]
        omega
      | none =>
        rw [ho, hl] at h1
        injection h1 with h1
        rw [← h1, dequeAppend_length, hcap, hslen]
        omega
    | none =>
      have hfa : firstAppear name bs = none := (hiff name).mp ho
      rw [hfa] at h2
      cases hl : lookupName b name with
      | some v =>
        have hck : containsKey b name = true :=
          (containsKey_iff_lookupName b name).mpr (by rw [hl]; rfl)
        rw [hck] at h2
        simp only [if_true] at h2
        injection h2 with h2
        subst h2
        rw [ho, hl] at h1
        injection h1 with h1
        rw [← h1, dequeAppend_length, hcap]
        simp
      | none =>
        have hck : containsKey b name = false := by
          rw [← Bool.not_eq_true, containsKey_iff_lookupName b name, hl]
          simp
        rw [hck] at h2
        simp at h2

theorem storeInv_applyBatches (cap : Nat) (bs : List Batch)
    (hnd : ∀ b ∈ bs, (b.map Prod.fst).Nodup) :
    StoreInv cap bs (applyBatches (initGraph cap) bs) := by
  induction bs using List.reverseRecOn with
  | nil => exact storeInv_nil cap
  | append_singleton bs b ih =>
    have happ : applyBatches (initGraph cap) (bs ++ [b]) =
        add_values (applyBatches (initGraph cap) bs) b := by
      unfold applyBatches
      rw [List.foldl_append]
      rfl
    rw [happ]
    exact storeInv_step cap bs _ b
      (ih (fun b' hb' => hnd b' (List.mem_append_left _ hb')))
      (hnd b (List.mem_append_right _ (List.mem_singleton_self b)))

/-! ### The claims -/

/-- Shorthand for a finite parsed value with integral mantissa (Python
`float(n)` for a small decimal integer literal `n`). -/
def pfin (n : Int) : PyFloat := PyFloat.fin ⟨n, 0⟩

/-- C1 counterexample: batches `[{a:1}, {b:2}]` on a fresh store of capacity 5
leave series `a` with length 2 but series `b` with length 1 — the claimed
"every tracked series has the same length after each update" fails as soon as
a name first appears after tick 1 (a new series is not back-filled). -/
theorem c1_counterexample :
    (seriesOf (applyBatches (initGraph 5) [[("a", pfin 1)], [("b", pfin 2)]]) "a").map
        List.length = some 2 ∧
    (seriesOf (applyBatches (initGraph 5) [[("a", pfin 1)], [("b", pfin 2)]]) "b").map
        List.length = some 1 := by
  decide

/-- C1 (amended): after applying any batch sequence to a fresh store, the tick
counter equals the number of batches, and every tracked name's series length
equals `min capacity (current tick - first tick the name appeared + 1)`
(ticks are 1-based, `firstAppear` is the 0-based batch index, so the claimed
difference is `bs.length - i`).  Series lengths are therefore equal only among
names tracked at least `capacity` ticks, not universally as claimed. -/
theorem c1_series_length_formula (cap : Nat) (bs : List Batch)
    (hnd : ∀ b ∈ bs, (b.map Prod.fst).Nodup) :
    (applyBatches (initGraph cap) bs).sample_count = bs.length ∧
    (∀ name s i, seriesOf (applyBatches (initGraph cap) bs) name = some s →
      firstAppear name bs = some i → s.length = min cap (bs.length - i)) := by
  obtain ⟨hcap, hsc, hts, hiff, hlen⟩ := storeInv_applyBatches cap bs hnd
  exact ⟨hsc, hlen⟩

/-- Witness for C1: the length formula evaluated on a concrete store. -/
theorem c1_series_length_formula_witness :
    ([some (pfin 2)] : List (Option PyFloat)).length = min 5 (2 - 1) :=
  (c1_series_length_formula 5 [[("a", pfin 1)], [("b", pfin 2)]] (by decide)).2
    "b" [some (pfin 2)] 1 (by decide) (by decide)

/-- C2: whenever the labeled grammar matches at least once on the stripped
line, `parse_line` is exactly the labeled fold — for every name its entry is
the last matching occurrence's converted value (`lastLabeledVal`), so the
positional grammar contributes nothing; and `"a:1,a:2"` parses to `{a: 2}`. -/
theorem c2_labeled_last_wins :
    (∀ (line : String) (name : String),
      labeledMatches (pyStrip line.data) ≠ [] →
      lookupName (parse_line line) name =
        lastLabeledVal (labeledMatches (pyStrip line.data)) name) ∧
    parse_line "a:1,a:2" = [("a", pfin 2)] := by
  constructor
  · intro line name h
    unfold parse_line parseStripped
    have h0 : pyStrip line.data ≠ [] := by
      intro he
      apply h
      rw [he]
      rfl
    rw [if_neg h0, if_neg h]
    exact lookupName_parseLabeled _ name
  · decide

/-- Witness for C2: the labeled-branch characterisation at a concrete line. -/
theorem c2_labeled_last_wins_witness :
    lookupName (parse_line "b:7") "b" =
      lastLabeledVal (labeledMatches (pyStrip ("b:7").data)) "b" :=
  c2_labeled_last_wins.1 "b:7" "b" (by decide)

/-- C3: on a line with zero labeled matches, the batch entry of the synthetic
name `CH(i+1)` is exactly the converted first numeric substring of field `i`
(0-based) of the separator split — fields without a numeric substring
contribute nothing and do not shift later indices; `"10 xx 30"` parses to
`{CH1: 10, CH3: 30}`. -/
theorem c3_positional_fields :
    (∀ (line : String) (i : Nat) (part : List Char),
      pyStrip line.data ≠ [] →
      labeledMatches (pyStrip line.data) = [] →
      (splitSep (pyStrip line.data)).get? i = some part →
      lookupName (parse_line line) (chName (i + 1)) =
        (searchNum part).bind pyFloatOfStr) ∧
    parse_line "10 xx 30" = [("CH1", pfin 10), ("CH3", pfin 30)] := by
  constructor
  · intro line i part h0 h1 hget
    unfold parse_line parseStripped
    rw [if_neg h0, if_pos h1]
    have h := lookupName_posGo_in (splitSep (pyStrip line.data)) 0 [] i part hget rfl
    simpa using h
  · decide

/-- Witness for C3: field 3 of `"10 xx 30"` feeds `CH3`. -/
theorem c3_positional_fields_witness :
    lookupName (parse_line "10 xx 30") (chName (2 + 1)) =
      (searchNum ("30".data)).bind pyFloatOfStr :=
  c3_positional_fields.1 "10 xx 30" 2 ("30".data) (by decide) (by decide) (by decide)

/-- C4 counterexample: the 310-digit token of `a:1000...0` is matched by the
numeric grammar and CPython `float` coerces it to `inf` (its value `10^309`
exceeds the double overflow threshold `2^1024 - 2^970`), so a returned batch
CAN contain Infinity, contrary to the claim. -/
theorem c4_counterexample :
    parse_line ("a:1" ++ String.mk (List.replicate 309 '0')) = [("a", PyFloat.inf)] := by
  decide

/-- C4 (amended): `parse_line` is total by construction; empty and
whitespace-only input yields an empty batch; and no batch value is ever NaN
(the numeric grammar only matches digit/sign/dot tokens, which `float` never
converts to NaN).  Infinity, however, is reachable for tokens beyond the IEEE
double range — see the counterexample. -/
theorem c4_total_no_nan :
    parse_line "" = [] ∧ parse_line "   " = [] ∧
    (∀ (line : String) (p : String × PyFloat), p ∈ parse_line line →
      p.2 ≠ PyFloat.nan) :=
  ⟨by decide, by decide, parse_values_not_nan⟩

/-- Witness for C4: the no-NaN guarantee on a concrete parse. -/
theorem c4_total_no_nan_witness : ("a", pfin 1).2 ≠ PyFloat.nan :=
  c4_total_no_nan.2.2 "a:1" ("a", pfin 1) (by decide)

/-- C5: from the connected state, the outcome trace (read success, read
success, read fail, reconnect success) emits exactly the two edge
notifications `[disconnected, reconnected]`; and in any state with the
`disconnected` flag already set no iteration emits a second disconnected
notification. -/
theorem c5_link_edge_notifications :
    linkRun ⟨false, true⟩
        [LinkEvent.readSuccess, LinkEvent.readSuccess, LinkEvent.readFail,
          LinkEvent.reconnectSuccess] =
      (⟨false, true⟩, [LinkNote.noteDisconnected, LinkNote.noteReconnected]) ∧
    (∀ (s : LinkState) (e : LinkEvent), s.disconnected = true →
      LinkNote.noteDisconnected ∉ (linkStep s e).2) := by
  constructor
  · decide
  · intro s e h
    obtain ⟨d, c⟩ := s
    cases d
    · cases h
    · cases c <;> cases e <;> decide

/-- Witness for C5: no repeated disconnected notification on a failing
reconnect attempt while already disconnected. -/
theorem c5_link_edge_notifications_witness :
    LinkNote.noteDisconnected ∉ (linkStep ⟨true, false⟩ LinkEvent.reconnectFail).2 :=
  c5_link_edge_notifications.2 ⟨true, false⟩ LinkEvent.reconnectFail rfl

/-- C6 counterexample: with capacity 2, after capacity+1 = 3 batches
`[{a:1}, {a:2}, {b:3}]` the tracked name `b` has series length 1, not
capacity — "len(series) == capacity for every tracked name thereafter" fails
for names that first appeared late. -/
theorem c6_counterexample :
    (seriesOf (applyBatches (initGraph 2) [[("a", pfin 1)], [("a", pfin 2)], [("b", pfin 3)]])
        "b").map List.length = some 1 := by
  decide

/-- C6 (amended): no series ever exceeds the capacity fixed at construction;
once more than `capacity` batches have been applied, tick 1 has been evicted
from the retained window; and a tracked series has length exactly `capacity`
provided its name has been present for at least `capacity` ticks (first
appearance index `i` with `i + capacity ≤ number of batches`). -/
theorem c6_sliding_window (cap : Nat) (bs : List Batch)
    (hnd : ∀ b ∈ bs, (b.map Prod.fst).Nodup) :
    (∀ name s, seriesOf (applyBatches (initGraph cap) bs) name = some s →
      s.length ≤ cap) ∧
    (cap < bs.length → (1 : Nat) ∉ (applyBatches (initGraph cap) bs).timestamps) ∧
    (∀ name s i, seriesOf (applyBatches (initGraph cap) bs) name = some s →
      firstAppear name bs = some i → i + cap ≤ bs.length → s.length = cap) := by
  obtain ⟨hcap, hsc, hts, hiff, hlen⟩ := storeInv_applyBatches cap bs hnd
  refine ⟨?_, ?_, ?_⟩
  · intro name s ho
    have hfa : firstAppear name bs ≠ none := by
      intro hn
      rw [(hiff name).mpr hn] at ho
      cases ho
    obtain ⟨i, hi⟩ := Option.ne_none_iff_exists'.mp hfa
    rw [hlen name s i ho hi]
    omega
  · intro hlt hmem
    rw [hts, List.mem_range'_1] at hmem
    omega
  · intro name s i ho hfa hle
    have hi := firstAppear_lt_length name bs i hfa
    rw [hlen name s i ho hfa]
    omega

/-- Witness for C6: eviction of tick 1 after capacity+1 batches at capacity 2. -/
theorem c6_sliding_window_witness :
    (1 : Nat) ∉ (applyBatches (initGraph 2)
      [[("a", pfin 1)], [("a", pfin 2)], [("a", pfin 3)]]).timestamps :=
  (c6_sliding_window 2 [[("a", pfin 1)], [("a", pfin 2)], [("a", pfin 3)]]
    (by decide)).2.1 (by decide)

/-- C7 counterexample: after the clear action on a state whose store holds one
batch, the tick counter is still 1 and series `a` still holds its sample —
the action clears only the log, it neither empties the series nor resets the
tick counter as claimed. -/
theorem c7_counterexample :
    (action_clear ⟨["x"], add_values (initGraph 2) [("a", pfin 1)], []⟩).graph.sample_count
        = 1 ∧
    seriesOf (action_clear ⟨["x"], add_values (initGraph 2) [("a", pfin 1)], []⟩).graph "a"
        = some [some (pfin 1)] := by
  decide

/-- C7 (amended): the clear action empties only the serial log display; the
graph store (series, tick counter, known names) and the latest-values mapping
are left unchanged. -/
theorem c7_clear_log_only (a : AppState) :
    (action_clear a).serial_log = [] ∧
    (action_clear a).graph = a.graph ∧
    (action_clear a).current_values = a.current_values :=
  ⟨rfl, rfl, rfl⟩

/-- C8 counterexample: capacity 0 satisfies "capacity ≤ 0" but construction
succeeds (`deque(maxlen=0)` is legal in Python), so the claimed fatal failure
for every capacity ≤ 0 is wrong at 0. -/
theorem c8_counterexample : mkPlotextGraph 0 = Except.ok (initGraph 0) := rfl

/-- C8 (amended): a negative capacity is fatal at construction time
(`deque(maxlen=m)` raises `ValueError` for `m < 0`, before any update), while
capacity 0 is accepted and yields the empty store that retains nothing. -/
theorem c8_negative_capacity_fatal :
    (∀ m : Int, m < 0 → mkPlotextGraph m = Except.error "maxlen must be non-negative") ∧
    mkPlotextGraph 0 = Except.ok (initGraph 0) := by
  constructor
  · intro m hm
    unfold mkPlotextGraph
    rw [if_pos hm]
  · rfl

/-- Witness for C8: construction with capacity -1 fails. -/
theorem c8_negative_capacity_fatal_witness :
    mkPlotextGraph (-1) = Except.error "maxlen must be non-negative" :=
  c8_negative_capacity_fatal.1 (-1) (by decide)

/-- C9: the latest-values widget merges batches with dict-update semantics —
a name already displayed stays displayed after any batch, and a batch that
omits a name leaves that name's displayed value unchanged, so the set of
displayed names only grows. -/
theorem c9_current_values_monotone (cv : Batch) (values : Batch) (name : String) :
    ((lookupName cv name).isSome = true →
      (lookupName (update_values cv values) name).isSome = true) ∧
    (containsKey values name = false →
      lookupName (update_values cv values) name = lookupName cv name) := by
  unfold update_values
  induction values generalizing cv with
  | nil => exact ⟨fun h => h, fun _ => rfl⟩
  | cons q vs ih =>
    rw [List.foldl_cons]
    constructor
    · intro h
      apply (ih (dictInsert cv q.1 q.2)).1
      by_cases hq : name = q.1
      · rw [hq, lookupName_dictInsert_self]
        rfl
      · rw [lookupName_dictInsert_ne cv q.1 q.2 name hq]
        exact h
    · intro h
      have hcons : ((q.1 == name) || containsKey vs name) = false := h
      rw [Bool.or_eq_false_iff] at hcons
      rw [(ih (dictInsert cv q.1 q.2)).2 hcons.2,
        lookupName_dictInsert_ne cv q.1 q.2 name
          (fun he => by
            have ht : (q.1 == name) = true := beq_iff_eq.mpr he.symm
            rw [hcons.1] at ht
            cases ht)]

/-- Witness for C9: persistence of `a` under an update that omits it. -/
theorem c9_current_values_monotone_witness :
    (lookupName (update_values [("a", pfin 1)] [("b", pfin 2)]) "a").isSome = true ∧
    lookupName (update_values [("a", pfin 1)] [("b", pfin 2)]) "a" =
      lookupName [("a", pfin 1)] "a" :=
  ⟨(c9_current_values_monotone [("a", pfin 1)] [("b", pfin 2)] "a").1 (by decide),
   (c9_current_values_monotone [("a", pfin 1)] [("b", pfin 2)] "a").2 (by decide)⟩

/-- C10: `\w+` accepts all-digit identifiers, so `"10:20"` is classified as
labeled — the parse returns the single entry with measurement NAME `"10"` and
value 20.0, and the labeled match list is nonempty (positional `CH<n>` naming
is suppressed). -/
theorem c10_numeric_label :
    parse_line "10:20" = [("10", pfin 20)] ∧
    labeledMatches (pyStrip ("10:20").data) = [("10", ['2', '0'])] := by
  decide
